import Mathlib

/-!
Verification of the CC-CEDICT dictionary converter
(`src/scripts/download_dictionary.py`).

The development shallowly embeds the two pieces of core logic:

* `parseLine` / `step` / `parse_cedict` embed the line loop of
  `parse_cedict` (lines 171-247): per-line parsing of the CC-CEDICT
  format, and the merge of candidate entries into a record mapping
  keyed by the traditional headword.  The Python `dict` is modelled as
  an insertion-ordered association list: a new key is appended at the
  end, an update replaces the stored record in place.  The model
  corresponds to a run with `max_entries=None` (the module default
  `MAX_ENTRIES = None`), where the entry cap and progress printing
  have no effect on the resulting mapping.

* `stepRow` / `build_pages` / `download_frequency_lists` embed the word
  frequency table builder (lines 31-136) from the point where a page
  has been scraped into rows of tag-free cell texts; the spec treats
  the HTML scraping itself as an external black box.

Python string idioms (`strip`, `split(c, 1)`, `split('/')`, `split()`,
`x or y` truthiness on optional integers) are embedded by the `py...`
helpers below.  `str.strip()` is modelled on the four common ASCII
whitespace characters.
-/

namespace Pandaverse

/-- Whitespace as stripped by Python's `str.strip()` (common subset). -/
def isSpaceC (c : Char) : Bool := c = ' ' || c = '\t' || c = '\n' || c = '\r'

/-- Remove leading and trailing characters satisfying `p`. -/
def stripListBy (p : Char → Bool) (l : List Char) : List Char :=
  ((l.dropWhile p).reverse.dropWhile p).reverse

/-- Python `s.strip()`. -/
def pyStrip (s : String) : String := String.mk (stripListBy isSpaceC s.toList)

/-- Python `s.strip('/')`. -/
def stripSlashes (s : String) : String :=
  String.mk (stripListBy (fun c => c = '/') s.toList)

/-- Split a character list at the first occurrence of `c`; `none` when
`c` does not occur.  This is Python's `s.split(c, 1)`, with the
one-element result (no occurrence) reported as `none`. -/
def splitFirstAux (c : Char) : List Char → Option (List Char × List Char)
  | [] => none
  | x :: xs =>
      if x = c then some ([], xs)
      else
        match splitFirstAux c xs with
        | none => none
        | some (a, b) => some (x :: a, b)

/-- Python `s.split(c, 1)` on strings (see `splitFirstAux`). -/
def splitOnce (c : Char) (s : String) : Option (String × String) :=
  (splitFirstAux c s.toList).map (fun p => (String.mk p.1, String.mk p.2))

/-- Python `s.split(c)`: split at every occurrence, keeping empty pieces. -/
def splitAllAux (c : Char) : List Char → List (List Char)
  | [] => [[]]
  | x :: xs =>
      if x = c then [] :: splitAllAux c xs
      else
        match splitAllAux c xs with
        | [] => [[x]]
        | h :: t => (x :: h) :: t

/-- Python `s.split(c)` on strings. -/
def pySplitChar (c : Char) (s : String) : List String :=
  (splitAllAux c s.toList).map String.mk

/-- Python `s.split()` (no argument): split at runs of whitespace,
dropping empty tokens.  `acc` holds the current token, reversed. -/
def wsSplitAux (acc : List Char) : List Char → List (List Char)
  | [] => if acc.isEmpty then [] else [acc.reverse]
  | c :: cs =>
      if isSpaceC c then
        if acc.isEmpty then wsSplitAux [] cs
        else acc.reverse :: wsSplitAux [] cs
      else wsSplitAux (c :: acc) cs

/-- Python `s.split()` on strings. -/
def pySplitWs (s : String) : List String :=
  (wsSplitAux [] s.toList).map String.mk

/-- A candidate entry: the data parsed from one accepted dictionary line
(`traditional`, `simplified`, `pinyin`, `definitions` at lines 188-199). -/
structure Entry where
  traditional : String
  simplified : String
  pinyin : String
  definitions : List String
deriving Repr, DecidableEq

/-- Python `line.startswith('#')` (line 174). -/
def startsWithHash (s : String) : Bool :=
  match s.toList with
  | '#' :: _ => true
  | _ => false

/-- The per-line parsing part of `parse_cedict` (lines 174-199): comment
lines and lines missing `[`, missing `]` after the first `[`, or with
fewer than two head tokens are rejected (`none`); otherwise the line
yields a candidate `Entry`.  The glosses are the `/`-separated pieces of
the tail, each stripped, empty pieces dropped. -/
def parseLine (line : String) : Option Entry :=
  if startsWithHash line then none
  else
    match splitOnce '[' line with
    | none => none
    | some (head, rest) =>
        match pySplitWs (pyStrip head) with
        | t :: s :: _ =>
            match splitOnce ']' rest with
            | none => none
            | some (py, defsSec) =>
                some { traditional := t, simplified := s, pinyin := pyStrip py,
                       definitions :=
                         ((pySplitChar '/' (stripSlashes defsSec)).map pyStrip).filter
                           (fun d => d ≠ "") }
        | _ => none

/-- A dictionary record, with the five fields built at lines 223-229. -/
structure Record where
  traditional : String
  simplified : String
  pinyin : String
  definitions : List String
  frequency : Option Int
deriving Repr, DecidableEq

/-- Python `x or y` on optional integers: `x` when it is present and
nonzero (truthy), otherwise `y`. -/
def pyOr (a b : Option Int) : Option Int :=
  match a with
  | some v => if v = 0 then b else some v
  | none => b

/-- Lookup in an insertion-ordered association list (Python `d.get(k)` /
`k in d`). -/
def alGet {β : Type} : List (String × β) → String → Option β
  | [], _ => none
  | (k', v) :: t, k => if k' = k then some v else alGet t k

/-- In-place update of the record stored under an existing key
(Python `d[k] = v` when `k in d`). -/
def alSet {β : Type} : List (String × β) → String → β → List (String × β)
  | [], _, _ => []
  | (k', v') :: t, k, v =>
      if k' = k then (k', v) :: t else (k', v') :: alSet t k v

/-- Line 203: `frequency_map.get(traditional) or frequency_map.get(simplified)`. -/
def candFreq (fm : List (String × Int)) (e : Entry) : Option Int :=
  pyOr (alGet fm e.traditional) (alGet fm e.simplified)

/-- Line 219: `frequency and (existing['frequency'] is None or frequency >
existing['frequency'])`. -/
def freqTake (freq old : Option Int) : Bool :=
  match freq with
  | none => false
  | some f =>
      decide (f ≠ 0) && (match old with
        | none => true
        | some g => decide (g < f))

/-- The merge of a candidate into an existing record (lines 208-220):
append the new pinyin when different, always append the bracketed
pinyin marker and the new glosses, keep the higher frequency. -/
def mergeRecord (existing : Record) (e : Entry) (freq : Option Int) : Record :=
  { existing with
      pinyin := if e.pinyin = existing.pinyin then existing.pinyin
                else existing.pinyin ++ "; " ++ e.pinyin,
      definitions := existing.definitions ++ ("[" ++ e.pinyin ++ "]") :: e.definitions,
      frequency := if freqTake freq existing.frequency then freq
                   else existing.frequency }

/-- The record created for a fresh key (lines 223-229). -/
def initRecord (fm : List (String × Int)) (e : Entry) : Record :=
  { traditional := e.traditional, simplified := e.simplified, pinyin := e.pinyin,
    definitions := e.definitions, frequency := candFreq fm e }

/-- One full iteration of the line loop of `parse_cedict` (lines 172-229):
parse the line, and either leave the mapping unchanged (rejected line),
merge into the existing record, or append a fresh record. -/
def step (fm : List (String × Int)) (dict : List (String × Record)) (line : String) :
    List (String × Record) :=
  match parseLine line with
  | none => dict
  | some e =>
      match alGet dict e.traditional with
      | some existing => alSet dict e.traditional (mergeRecord existing e (candFreq fm e))
      | none => dict ++ [(e.traditional, initRecord fm e)]

/-- `parse_cedict(filename, frequency_map)` with `max_entries=None`:
fold the line loop over the decompressed lines, starting from an empty
mapping. -/
def parse_cedict (fm : List (String × Int)) (lines : List String) :
    List (String × Record) :=
  lines.foldl (step fm) []

/-- Lines 123-126: insert a word at a score unless the word is already
present (first occurrence wins). -/
def freqInsert (k : String) (v : Int) (m : List (String × Int)) :
    List (String × Int) :=
  if (alGet m k).isNone then m ++ [(k, v)] else m

/-- Lines 99-126 for one usable row: skip when a stripped cell is empty
(the rank is still consumed), otherwise insert the traditional then the
simplified form at score `11000 - rank`. -/
def rowInsert (i rc : Nat) (trad simpw : String) (m : List (String × Int)) :
    List (String × Int) :=
  if trad = "" || simpw = "" then m
  else
    freqInsert simpw (11000 - Int.ofNat (i * 1000 + rc))
      (freqInsert trad (11000 - Int.ofNat (i * 1000 + rc)) m)

/-- One row of a frequency page (lines 74-126): rows with fewer than two
cells are skipped without consuming a rank; otherwise the 1-based row
count within the page is advanced and the two stripped word forms are
inserted (see `rowInsert`).  The state is the row count paired with the
frequency mapping. -/
def stepRow (i : Nat) (st : Nat × List (String × Int)) (cells : List String) :
    Nat × List (String × Int) :=
  match cells with
  | c0 :: c1 :: _ =>
      (st.1 + 1, rowInsert i (st.1 + 1) (pyStrip c0) (pyStrip c1) st.2)
  | _ => st

/-- The page loop of `download_frequency_lists` (lines 38-133): pages are
processed in order with 0-based index `i`, the row count restarting at
each page. -/
def build_pages : Nat → List (String × Int) → List (List (List String)) → List (String × Int)
  | _, m, [] => m
  | i, m, p :: ps => build_pages (i + 1) (p.foldl (stepRow i) (0, m)).2 ps

/-- `download_frequency_lists()` on scraped pages (each page a list of
rows, each row its tag-free cell texts). -/
def download_frequency_lists (pages : List (List (List String))) :
    List (String × Int) :=
  build_pages 0 [] pages

/-! ### Association-list and merge lemmas -/

theorem alGet_append {β : Type} (l₁ l₂ : List (String × β)) (k : String) :
    alGet (l₁ ++ l₂) k =
      match alGet l₁ k with
      | some v => some v
      | none => alGet l₂ k := by
  induction l₁ with
  | nil => simp [alGet]
  | cons p t ih =>
      obtain ⟨k', v⟩ := p
      by_cases h : k' = k <;> simp [alGet, h, ih]

theorem alGet_append_left {β : Type} {l₁ : List (String × β)} {k : String} {v : β}
    (l₂ : List (String × β)) (h : alGet l₁ k = some v) :
    alGet (l₁ ++ l₂) k = some v := by
  rw [alGet_append, h]

theorem alGet_append_right {β : Type} {l₁ : List (String × β)} {k : String}
    (l₂ : List (String × β)) (h : alGet l₁ k = none) :
    alGet (l₁ ++ l₂) k = alGet l₂ k := by
  rw [alGet_append, h]

theorem alGet_eq_none_iff {β : Type} (l : List (String × β)) (k : String) :
    alGet l k = none ↔ k ∉ l.map Prod.fst := by
  induction l with
  | nil => simp [alGet]
  | cons p t ih =>
      obtain ⟨k', v⟩ := p
      by_cases h : k' = k
      · simp [alGet, h]
      · simp [alGet, h, ih, Ne.symm h]

theorem alGet_mem {β : Type} {l : List (String × β)} {k : String} {v : β}
    (h : alGet l k = some v) : (k, v) ∈ l := by
  induction l with
  | nil => simp [alGet] at h
  | cons p t ih =>
      obtain ⟨k', v'⟩ := p
      by_cases hk : k' = k
      · simp [alGet, hk] at h
        simp [hk, h]
      · simp [alGet, hk] at h
        exact List.mem_cons_of_mem _ (ih h)

theorem alGet_alSet_self {β : Type} {l : List (String × β)} {k : String} {r : β}
    (v : β) (h : alGet l k = some r) : alGet (alSet l k v) k = some v := by
  induction l with
  | nil => simp [alGet] at h
  | cons p t ih =>
      obtain ⟨k', v'⟩ := p
      by_cases hk : k' = k
      · simp [alSet, hk, alGet]
      · simp [alGet, hk] at h
        simp [alSet, hk, alGet, ih h]

theorem alGet_alSet_ne {β : Type} (l : List (String × β)) {k k' : String}
    (v : β) (h : k' ≠ k) : alGet (alSet l k v) k' = alGet l k' := by
  induction l with
  | nil => simp [alSet]
  | cons p t ih =>
      obtain ⟨k₀, v₀⟩ := p
      by_cases hk : k₀ = k
      · subst hk
        have hne : ¬k₀ = k' := fun hh => h hh.symm
        simp [alSet, alGet, hne]
      · simp [alSet, hk, alGet, ih]

theorem mem_alSet {β : Type} {l : List (String × β)} {k : String} {v : β}
    {p : String × β} (h : p ∈ alSet l k v) : p ∈ l ∨ p = (k, v) := by
  induction l with
  | nil => simp [alSet] at h
  | cons q t ih =>
      obtain ⟨k₀, v₀⟩ := q
      by_cases hk : k₀ = k
      · subst hk
        simp [alSet] at h
        rcases h with h | h
        · exact Or.inr (by simp [h])
        · exact Or.inl (List.mem_cons_of_mem _ h)
      · simp [alSet, hk] at h
        rcases h with h | h
        · exact Or.inl (by simp [h])
        · rcases ih h with h' | h'
          · exact Or.inl (List.mem_cons_of_mem _ h')
          · exact Or.inr h'

theorem mergeRecord_traditional (existing : Record) (e : Entry) (f : Option Int) :
    (mergeRecord existing e f).traditional = existing.traditional := rfl

theorem mergeRecord_simplified (existing : Record) (e : Entry) (f : Option Int) :
    (mergeRecord existing e f).simplified = existing.simplified := rfl

/-- Ordering on stored frequencies: any value present on the left is
bounded by a value present on the right. -/
def freqLe (a b : Option Int) : Prop := ∀ x, a = some x → ∃ y, b = some y ∧ x ≤ y

theorem freqLe_refl (a : Option Int) : freqLe a a := fun x hx => ⟨x, hx, le_refl x⟩

theorem freqLe_trans {a b c : Option Int} (h₁ : freqLe a b) (h₂ : freqLe b c) :
    freqLe a c := by
  intro x hx
  obtain ⟨y, hy, hxy⟩ := h₁ x hx
  obtain ⟨z, hz, hyz⟩ := h₂ y hy
  exact ⟨z, hz, le_trans hxy hyz⟩

theorem mergeRecord_freqLe (existing : Record) (e : Entry) (f : Option Int) :
    freqLe existing.frequency (mergeRecord existing e f).frequency := by
  intro x hx
  by_cases h : freqTake f existing.frequency = true
  · match f with
    | none => simp [freqTake] at h
    | some v =>
        have hv : x < v := by
          unfold freqTake at h
          rw [hx] at h
          simp at h
          exact h.2
        exact ⟨v, by simp [mergeRecord, h], le_of_lt hv⟩
  · refine ⟨x, ?_, le_refl x⟩
    show (if freqTake f existing.frequency = true then f else existing.frequency) = some x
    rw [if_neg h]
    exact hx

/-- What `step` does to the record stored under a key that is already
present: it is left unchanged, or (when the line parses to an entry for
this very key) it is replaced by the merge of the candidate into it. -/
theorem step_lookup (fm : List (String × Int)) (dict : List (String × Record))
    (l : String) {k : String} {r : Record} (h : alGet dict k = some r) :
    alGet (step fm dict l) k = some r ∨
      ∃ e, parseLine l = some e ∧ e.traditional = k ∧
        alGet (step fm dict l) k = some (mergeRecord r e (candFreq fm e)) := by
  match hp : parseLine l with
  | none =>
      simp only [step, hp]
      exact Or.inl h
  | some e =>
      by_cases hk : e.traditional = k
      · subst hk
        simp only [step, hp, h]
        exact Or.inr ⟨e, rfl, rfl, alGet_alSet_self _ h⟩
      · match hg : alGet dict e.traditional with
        | some ex =>
            simp only [step, hp, hg]
            exact Or.inl ((alGet_alSet_ne dict _ (fun hh => hk hh.symm)).trans h)
        | none =>
            simp only [step, hp, hg]
            exact Or.inl (alGet_append_left _ h)

/-- A fold invariant: a property preserved by every step holds of the
result of `List.foldl`. -/
theorem foldl_invariant {α β : Type} (f : α → β → α) (P : α → Prop)
    (hstep : ∀ a b, P a → P (f a b)) :
    ∀ (l : List β) (a : α), P a → P (l.foldl f a) := by
  intro l
  induction l with
  | nil => intro a ha; exact ha
  | cons b t ih => intro a ha; exact ih (f a b) (hstep a b ha)

theorem splitFirstAux_eq_none_iff (c : Char) (l : List Char) :
    splitFirstAux c l = none ↔ c ∉ l := by
  induction l with
  | nil => simp [splitFirstAux]
  | cons x xs ih =>
      simp only [splitFirstAux]
      by_cases h : x = c
      · subst h; simp
      · rw [if_neg h]
        cases hh : splitFirstAux c xs with
        | none =>
            have hcx : ¬c = x := fun hc => h hc.symm
            simp [List.mem_cons, hcx, ih.mp hh]
        | some p =>
            have : c ∈ xs := by
              by_contra hc
              rw [← ih] at hc
              rw [hh] at hc
              cases hc
            obtain ⟨a, b⟩ := p
            simp [this]

theorem splitOnce_eq_none_iff (c : Char) (s : String) :
    splitOnce c s = none ↔ c ∉ s.toList := by
  rw [← splitFirstAux_eq_none_iff c s.toList]
  unfold splitOnce
  cases hh : splitFirstAux c s.toList with
  | none => simp [hh]
  | some p => simp [hh]

theorem append_ne_left (a b : String) (h : a ≠ "") : a ++ b ≠ "" := by
  intro hc
  apply h
  obtain ⟨la⟩ := a
  obtain ⟨lb⟩ := b
  have h2 : la ++ lb = [] := congrArg String.data hc
  have h3 : la = [] := (List.append_eq_nil.mp h2).1
  rw [h3]

/-- A fold invariant where the step hypothesis is restricted to the
elements of the list folded over. -/
theorem foldl_invariant_mem {α β : Type} (f : α → β → α) (P : α → Prop) :
    ∀ (l : List β), (∀ a b, b ∈ l → P a → P (f a b)) →
      ∀ a, P a → P (l.foldl f a) := by
  intro l
  induction l with
  | nil => intro _ a ha; exact ha
  | cons b t ih =>
      intro hstep a ha
      exact ih (fun a' b' hb' => hstep a' b' (List.mem_cons_of_mem _ hb'))
        (f a b) (hstep a b (List.mem_cons_self _ _) ha)

theorem freqInsert_lookup {m : List (String × Int)} {k w : String} {v s : Int}
    (h : alGet (freqInsert k v m) w = some s) : alGet m w = some s ∨ s = v := by
  unfold freqInsert at h
  by_cases hk : (alGet m k).isNone = true
  · rw [if_pos hk, alGet_append] at h
    cases hm : alGet m w with
    | some u =>
        rw [hm] at h
        exact Or.inl h
    | none =>
        rw [hm] at h
        by_cases hw : k = w
        · simp [alGet, hw] at h
          exact Or.inr h.symm
        · simp [alGet, hw] at h
  · rw [if_neg hk] at h
    exact Or.inl h

/-- Folding lines whose entries all carry fresh, pairwise-distinct keys
appends exactly one record per entry. -/
theorem parse_fold_fresh_keys (fm : List (String × Int)) :
    ∀ (lines : List String) (entries : List Entry) (dict : List (String × Record)),
      lines.map parseLine = entries.map some →
      (entries.map Entry.traditional).Pairwise (· ≠ ·) →
      (∀ e ∈ entries, alGet dict e.traditional = none) →
      lines.foldl (step fm) dict =
        dict ++ entries.map (fun e => (e.traditional, initRecord fm e)) := by
  intro lines
  induction lines with
  | nil =>
      intro entries dict hp _ _
      have : entries = [] := by
        cases entries with
        | nil => rfl
        | cons e es => simp at hp
      subst this
      simp
  | cons l ls ih =>
      intro entries dict hp hd hall
      cases entries with
      | nil => simp at hp
      | cons e es =>
          simp only [List.map_cons, List.cons.injEq] at hp
          obtain ⟨hpe, hps⟩ := hp
          have hfresh : alGet dict e.traditional = none :=
            hall e (List.mem_cons_self _ _)
          have hstep : step fm dict l = dict ++ [(e.traditional, initRecord fm e)] := by
            simp only [step, hpe, hfresh]
          have hdc : (∀ a ∈ es, ¬e.traditional = a.traditional) ∧
              List.Pairwise (fun x1 x2 => ¬x1 = x2)
                (List.map Entry.traditional es) := by simpa using hd
          have hne : ∀ e' ∈ es, e.traditional ≠ e'.traditional := hdc.1
          have hall' : ∀ e' ∈ es,
              alGet (dict ++ [(e.traditional, initRecord fm e)]) e'.traditional = none := by
            intro e' he'
            rw [alGet_append_right _ (hall e' (List.mem_cons_of_mem _ he'))]
            simp [alGet, hne e' he']
          rw [List.foldl_cons, hstep,
            ih es _ hps (by simpa using hdc.2) hall']
          simp

/-! ### Claim theorems -/

/-- Claim C1: for two input lines sharing the same traditional key with
different pronunciations, processed in input order, the merged record's
definitions sequence equals the first line's glosses, then the single
element `"[" ++ second pinyin ++ "]"`, then the second line's glosses;
and the merged pinyin equals `first ++ "; " ++ second`. -/
theorem merged_record_distinct_pinyin (fm : List (String × Int))
    (l₁ l₂ : String) (e₁ e₂ : Entry)
    (h₁ : parseLine l₁ = some e₁) (h₂ : parseLine l₂ = some e₂)
    (hk : e₂.traditional = e₁.traditional) (hp : e₂.pinyin ≠ e₁.pinyin) :
    ∃ r, alGet (parse_cedict fm [l₁, l₂]) e₁.traditional = some r ∧
      r.pinyin = e₁.pinyin ++ "; " ++ e₂.pinyin ∧
      r.definitions = e₁.definitions ++ ("[" ++ e₂.pinyin ++ "]") :: e₂.definitions := by
  refine ⟨mergeRecord (initRecord fm e₁) e₂ (candFreq fm e₂), ?_, ?_, ?_⟩
  · show alGet (step fm (step fm [] l₁) l₂) e₁.traditional = _
    have s1 : step fm [] l₁ = [(e₁.traditional, initRecord fm e₁)] := by
      simp [step, h₁, alGet]
    rw [s1]
    have hg : alGet [(e₁.traditional, initRecord fm e₁)] e₂.traditional =
        some (initRecord fm e₁) := by
      simp [alGet, hk]
    simp only [step, h₂, hg]
    have hs : alSet [(e₁.traditional, initRecord fm e₁)] e₂.traditional
        (mergeRecord (initRecord fm e₁) e₂ (candFreq fm e₂)) =
        [(e₁.traditional, mergeRecord (initRecord fm e₁) e₂ (candFreq fm e₂))] := by
      simp [alSet, hk]
    rw [hs]
    simp [alGet]
  · simp [mergeRecord, initRecord, hp]
  · simp [mergeRecord, initRecord]

/-- Closed instance of C1: the end-to-end example from the spec, at an
empty frequency mapping. -/
theorem merged_record_distinct_pinyin_witness :
    ∃ r, alGet (parse_cedict []
        ["中國 中国 [Zhong1 guo2] /China/Middle Kingdom/",
         "中國 中国 [Zhong1guo2] /(old) Central Plain/"]) "中國" = some r ∧
      r.pinyin = "Zhong1 guo2; Zhong1guo2" ∧
      r.definitions = ["China", "Middle Kingdom", "[Zhong1guo2]", "(old) Central Plain"] := by
  obtain ⟨r, h1, h2, h3⟩ := merged_record_distinct_pinyin []
    "中國 中国 [Zhong1 guo2] /China/Middle Kingdom/"
    "中國 中国 [Zhong1guo2] /(old) Central Plain/"
    ⟨"中國", "中国", "Zhong1 guo2", ["China", "Middle Kingdom"]⟩
    ⟨"中國", "中国", "Zhong1guo2", ["(old) Central Plain"]⟩
    (by decide) (by decide) (by decide) (by decide)
  exact ⟨r, h1, by rw [h2]; decide, by rw [h3]; decide⟩

/-- Claim C5: for two input lines sharing the same traditional key with
identical pronunciation strings, the merged pinyin equals that single
pronunciation (not re-appended), while the definitions sequence still
receives the bracketed marker followed by the second line's glosses. -/
theorem merged_record_same_pinyin (fm : List (String × Int))
    (l₁ l₂ : String) (e₁ e₂ : Entry)
    (h₁ : parseLine l₁ = some e₁) (h₂ : parseLine l₂ = some e₂)
    (hk : e₂.traditional = e₁.traditional) (hp : e₂.pinyin = e₁.pinyin) :
    ∃ r, alGet (parse_cedict fm [l₁, l₂]) e₁.traditional = some r ∧
      r.pinyin = e₁.pinyin ∧
      r.definitions = e₁.definitions ++ ("[" ++ e₂.pinyin ++ "]") :: e₂.definitions := by
  refine ⟨mergeRecord (initRecord fm e₁) e₂ (candFreq fm e₂), ?_, ?_, ?_⟩
  · show alGet (step fm (step fm [] l₁) l₂) e₁.traditional = _
    have s1 : step fm [] l₁ = [(e₁.traditional, initRecord fm e₁)] := by
      simp [step, h₁, alGet]
    rw [s1]
    have hg : alGet [(e₁.traditional, initRecord fm e₁)] e₂.traditional =
        some (initRecord fm e₁) := by
      simp [alGet, hk]
    simp only [step, h₂, hg]
    have hs : alSet [(e₁.traditional, initRecord fm e₁)] e₂.traditional
        (mergeRecord (initRecord fm e₁) e₂ (candFreq fm e₂)) =
        [(e₁.traditional, mergeRecord (initRecord fm e₁) e₂ (candFreq fm e₂))] := by
      simp [alSet, hk]
    rw [hs]
    simp [alGet]
  · simp [mergeRecord, initRecord, hp]
  · simp [mergeRecord, initRecord]

/-- Closed instance of C5: the same headword under the same
pronunciation twice. -/
theorem merged_record_same_pinyin_witness :
    ∃ r, alGet (parse_cedict [] ["AA BB [p] /d1/", "AA CC [p] /d2/"]) "AA" = some r ∧
      r.pinyin = "p" ∧ r.definitions = ["d1", "[p]", "d2"] := by
  obtain ⟨r, h1, h2, h3⟩ := merged_record_same_pinyin []
    "AA BB [p] /d1/" "AA CC [p] /d2/"
    ⟨"AA", "BB", "p", ["d1"]⟩ ⟨"AA", "CC", "p", ["d2"]⟩
    (by decide) (by decide) (by decide) (by decide)
  exact ⟨r, h1, by rw [h2], by rw [h3]; decide⟩

/-- Claim C9: a merge never changes the `traditional` and `simplified`
fields of an existing record, and, over any further lines, a key keeps
the first-seen values of both fields (a different simplified spelling
on a later line for the same traditional key is ignored). -/
theorem merge_preserves_headword_fields (fm : List (String × Int))
    (dict : List (String × Record)) (lines : List String) (k : String) (r : Record)
    (h : alGet dict k = some r) :
    (∀ (ex : Record) (e : Entry) (f : Option Int),
        (mergeRecord ex e f).traditional = ex.traditional ∧
        (mergeRecord ex e f).simplified = ex.simplified) ∧
    ∃ r', alGet (lines.foldl (step fm) dict) k = some r' ∧
      r'.traditional = r.traditional ∧ r'.simplified = r.simplified := by
  refine ⟨fun ex e f => ⟨rfl, rfl⟩, ?_⟩
  refine foldl_invariant (step fm)
    (fun d => ∃ r', alGet d k = some r' ∧
      r'.traditional = r.traditional ∧ r'.simplified = r.simplified)
    ?_ lines dict ⟨r, h, rfl, rfl⟩
  intro d l hd
  obtain ⟨r', hr', ht, hs⟩ := hd
  rcases step_lookup fm d l hr' with h' | ⟨e, _, _, h'⟩
  · exact ⟨r', h', ht, hs⟩
  · exact ⟨_, h', by rw [mergeRecord_traditional]; exact ht,
      by rw [mergeRecord_simplified]; exact hs⟩

/-- Closed instance of C9: a later line with the same traditional key
but a different simplified spelling leaves both headword fields as
first seen. -/
theorem merge_preserves_headword_fields_witness :
    (∀ (ex : Record) (e : Entry) (f : Option Int),
        (mergeRecord ex e f).traditional = ex.traditional ∧
        (mergeRecord ex e f).simplified = ex.simplified) ∧
    ∃ r', alGet (["AA CC [q] /d2/"].foldl (step [])
        [("AA", ⟨"AA", "BB", "p", ["d1"], none⟩)]) "AA" = some r' ∧
      r'.traditional = Record.traditional ⟨"AA", "BB", "p", ["d1"], none⟩ ∧
      r'.simplified = Record.simplified ⟨"AA", "BB", "p", ["d1"], none⟩ :=
  merge_preserves_headword_fields [] [("AA", ⟨"AA", "BB", "p", ["d1"], none⟩)]
    ["AA CC [q] /d2/"] "AA" ⟨"AA", "BB", "p", ["d1"], none⟩ (by decide)

/-- Claim C10: every key of the mapping produced by the parse/merge fold
stores a record whose `traditional` field equals that key; the field
set itself (`traditional`, `simplified`, `pinyin`, `definitions`,
`frequency`) is fixed by the `Record` structure built at lines 223-229
and is unchanged by merges, which only update existing fields. -/
theorem key_field_agreement (fm : List (String × Int)) (lines : List String)
    (k : String) (r : Record) (h : alGet (parse_cedict fm lines) k = some r) :
    r.traditional = k := by
  have hinv : ∀ p ∈ parse_cedict fm lines, (Prod.snd p).traditional = p.1 := by
    refine foldl_invariant (step fm)
      (fun d => ∀ p ∈ d, (Prod.snd p).traditional = p.1) ?_ lines [] (by simp)
    intro d l hd p
    match hq : parseLine l with
    | none =>
        simp only [step, hq]
        exact hd p
    | some e =>
        match hg : alGet d e.traditional with
        | some ex =>
            simp only [step, hq, hg]
            intro hp
            rcases mem_alSet hp with h' | h'
            · exact hd p h'
            · subst h'
              have hex : ex.traditional = e.traditional := hd _ (alGet_mem hg)
              simpa [mergeRecord_traditional] using hex
        | none =>
            simp only [step, hq, hg]
            intro hp
            rcases List.mem_append.mp hp with h' | h'
            · exact hd p h'
            · have : p = (e.traditional, initRecord fm e) := by simpa using h'
              subst this
              rfl
  exact hinv (k, r) (alGet_mem h)

/-- Closed instance of C10 at a concrete one-line input. -/
theorem key_field_agreement_witness :
    Record.traditional ⟨"AA", "BB", "p", ["d"], none⟩ = "AA" :=
  key_field_agreement [] ["AA BB [p] /d/"] "AA"
    ⟨"AA", "BB", "p", ["d"], none⟩ (by decide)

/-- Claim C4: a merge changes the stored frequency only when the
candidate's frequency is present and strictly greater than the stored
value (or nothing is stored yet); consequently, over any sequence of
further lines, a record's stored frequency never decreases. -/
theorem frequency_monotone (fm : List (String × Int))
    (dict : List (String × Record)) (lines : List String)
    (ex : Record) (e : Entry) (f : Option Int) (k : String) (r : Record) :
    ((mergeRecord ex e f).frequency ≠ ex.frequency →
       ∃ v, f = some v ∧
         (ex.frequency = none ∨ ∃ g, ex.frequency = some g ∧ g < v) ∧
         (mergeRecord ex e f).frequency = some v) ∧
    (alGet dict k = some r →
       ∃ r', alGet (lines.foldl (step fm) dict) k = some r' ∧
         freqLe r.frequency r'.frequency) := by
  constructor
  · intro hne
    by_cases h : freqTake f ex.frequency = true
    · match f with
      | none => simp [freqTake] at h
      | some v =>
          refine ⟨v, rfl, ?_, ?_⟩
          · unfold freqTake at h
            simp only [Bool.and_eq_true, decide_eq_true_eq] at h
            match hf : ex.frequency with
            | none => exact Or.inl rfl
            | some g =>
                rw [hf] at h
                exact Or.inr ⟨g, rfl, by simpa using h.2⟩
          · show (if freqTake (some v) ex.frequency = true then some v
              else ex.frequency) = some v
            rw [if_pos h]
    · exfalso
      apply hne
      show (if freqTake f ex.frequency = true then f else ex.frequency) = ex.frequency
      rw [if_neg h]
  · intro h
    refine foldl_invariant (step fm)
      (fun d => ∃ r', alGet d k = some r' ∧ freqLe r.frequency r'.frequency)
      ?_ lines dict ⟨r, h, freqLe_refl _⟩
    intro d l hd
    obtain ⟨r', hr', hle⟩ := hd
    rcases step_lookup fm d l hr' with h' | ⟨e', _, _, h'⟩
    · exact ⟨r', h', hle⟩
    · exact ⟨_, h', freqLe_trans hle (mergeRecord_freqLe r' e' (candFreq fm e'))⟩

/-- Closed instance of C4: a candidate frequency 5 overrides a stored 3,
and the stored frequency of a key does not decrease over a later line
carrying a smaller score. -/
theorem frequency_monotone_witness :
    (∃ v, (some 5 : Option Int) = some v ∧
       (Record.frequency ⟨"AA", "BB", "p", ["d"], some 3⟩ = none ∨
        ∃ g, Record.frequency ⟨"AA", "BB", "p", ["d"], some 3⟩ = some g ∧ g < v) ∧
       (mergeRecord ⟨"AA", "BB", "p", ["d"], some 3⟩ ⟨"AA", "BB", "q", ["d2"]⟩
          (some 5)).frequency = some v) ∧
    (∃ r', alGet (["AA BB [q] /d2/"].foldl (step [("AA", 2)])
        [("AA", ⟨"AA", "BB", "p", ["d"], some 3⟩)]) "AA" = some r' ∧
       freqLe (Record.frequency ⟨"AA", "BB", "p", ["d"], some 3⟩) r'.frequency) := by
  have h := frequency_monotone [("AA", 2)]
    [("AA", ⟨"AA", "BB", "p", ["d"], some 3⟩)] ["AA BB [q] /d2/"]
    ⟨"AA", "BB", "p", ["d"], some 3⟩ ⟨"AA", "BB", "q", ["d2"]⟩ (some 5)
    "AA" ⟨"AA", "BB", "p", ["d"], some 3⟩
  exact ⟨h.1 (by decide), h.2 (by decide)⟩

/-- Claim C6: a line with no `[`, or with no `]` after the first `[`, or
whose head segment has fewer than two whitespace tokens, is rejected:
it yields no candidate entry, leaves the record mapping unchanged, and
the fold continues with the remaining lines from the same state. -/
theorem malformed_line_skipped (fm : List (String × Int))
    (dict : List (String × Record)) (l : String) (rest : List String)
    (h : '[' ∉ l.toList ∨
         ∃ hd tl, splitOnce '[' l = some (hd, tl) ∧
           (']' ∉ tl.toList ∨ (pySplitWs (pyStrip hd)).length < 2)) :
    parseLine l = none ∧ step fm dict l = dict ∧
      (l :: rest).foldl (step fm) dict = rest.foldl (step fm) dict := by
  have hnone : parseLine l = none := by
    by_cases hh : startsWithHash l = true
    · simp [parseLine, hh]
    · rcases h with hno | ⟨hd, tl, hsp, hcase⟩
      · have : splitOnce '[' l = none := (splitOnce_eq_none_iff _ _).mpr hno
        simp [parseLine, hh, this]
      · rcases hcase with hnoC | hlen
        · have h2 : splitOnce ']' tl = none := (splitOnce_eq_none_iff _ _).mpr hnoC
          cases hw : pySplitWs (pyStrip hd) with
          | nil => simp [parseLine, hh, hsp, hw]
          | cons a t' =>
              cases t' with
              | nil => simp [parseLine, hh, hsp, hw]
              | cons b t'' => simp [parseLine, hh, hsp, hw, h2]
        · cases hw : pySplitWs (pyStrip hd) with
          | nil => simp [parseLine, hh, hsp, hw]
          | cons a t' =>
              cases t' with
              | nil => simp [parseLine, hh, hsp, hw]
              | cons b t'' =>
                  exfalso
                  rw [hw] at hlen
                  simp at hlen
                  omega
  have hstep : step fm dict l = dict := by simp [step, hnone]
  exact ⟨hnone, hstep, by rw [List.foldl_cons, hstep]⟩

/-- Closed instance of C6: a line with no bracket is skipped and the
next line is still processed. -/
theorem malformed_line_skipped_witness :
    parseLine "AA BB no brackets here" = none ∧
    step [] [] "AA BB no brackets here" = [] ∧
    (["AA BB no brackets here"] ++ ["CC DD [p] /d/"]).foldl (step []) [] =
      ["CC DD [p] /d/"].foldl (step []) [] :=
  malformed_line_skipped [] [] "AA BB no brackets here" ["CC DD [p] /d/"]
    (Or.inl (by decide))

/-- Claim C7 fails on the code as stated: the lookup uses Python
truthiness (`get(traditional) or get(simplified)`), so a frequency
mapping that stores 0 for the traditional form does not supply 0 — the
lookup falls through to the simplified form.  Here `"TT"` is in the
mapping with value 0, yet the record's frequency is 5, the simplified
form's value. -/
theorem freq_lookup_truthiness_cex :
    alGet [("TT", (0 : Int)), ("SS", 5)] "TT" = some 0 ∧
    (alGet (parse_cedict [("TT", 0), ("SS", 5)] ["TT SS [p] /d/"]) "TT").map
      Record.frequency = some (some 5) ∧
    (some (5 : Int) : Option Int) ≠ some 0 := by decide

/-- Claim C7 (amended): for a new entry, the assigned frequency is the
mapping's value for the traditional form when that value is present and
nonzero; when the traditional form is absent — or present with value 0
(Python truthiness) — it is the mapping's value for the simplified
form; absence of both leaves the frequency unset. -/
theorem freq_lookup_fallback (fm : List (String × Int))
    (dict : List (String × Record)) (l : String) (e : Entry)
    (h : parseLine l = some e) (hfresh : alGet dict e.traditional = none) :
    ∃ r, alGet (step fm dict l) e.traditional = some r ∧
      (∀ v, alGet fm e.traditional = some v → v ≠ 0 → r.frequency = some v) ∧
      (alGet fm e.traditional = none → r.frequency = alGet fm e.simplified) ∧
      (alGet fm e.traditional = some 0 → r.frequency = alGet fm e.simplified) := by
  refine ⟨initRecord fm e, ?_, ?_, ?_, ?_⟩
  · simp only [step, h, hfresh]
    rw [alGet_append_right _ hfresh]
    simp [alGet]
  · intro v hv hv0
    simp [initRecord, candFreq, pyOr, hv, hv0]
  · intro hv
    simp [initRecord, candFreq, pyOr, hv]
  · intro hv
    simp [initRecord, candFreq, pyOr, hv]

/-- Closed instance of the amended C7: `"TT"` absent from the mapping,
so the simplified form's score is taken. -/
theorem freq_lookup_fallback_witness :
    ∃ r, alGet (step [("SS", (7 : Int))] [] "TT SS [p] /d/") "TT" = some r ∧
      (∀ v, alGet [("SS", (7 : Int))] "TT" = some v → v ≠ 0 → r.frequency = some v) ∧
      (alGet [("SS", (7 : Int))] "TT" = none →
        r.frequency = alGet [("SS", (7 : Int))] "SS") ∧
      (alGet [("SS", (7 : Int))] "TT" = some 0 →
        r.frequency = alGet [("SS", (7 : Int))] "SS") :=
  freq_lookup_fallback [("SS", 7)] [] "TT SS [p] /d/"
    ⟨"TT", "SS", "p", ["d"]⟩ (by decide) (by decide)

/-- Claim C8: for valid lines with pairwise-distinct traditional keys,
the output mapping holds exactly one record per key, in input order,
and each record carries exactly the fields parsed from that key's
single candidate line (with its frequency looked up per C7). -/
theorem distinct_keys_one_record_each (fm : List (String × Int))
    (lines : List String) (entries : List Entry)
    (hp : lines.map parseLine = entries.map some)
    (hd : (entries.map Entry.traditional).Pairwise (· ≠ ·)) :
    parse_cedict fm lines = entries.map (fun e => (e.traditional, initRecord fm e)) := by
  have := parse_fold_fresh_keys fm lines entries [] hp hd (fun e _ => rfl)
  simpa using this

/-- Closed instance of C8 on two lines with distinct keys. -/
theorem distinct_keys_one_record_each_witness :
    parse_cedict [] ["AA BB [p1] /d1/", "CC DD [p2] /d2/"] =
      [("AA", ⟨"AA", "BB", "p1", ["d1"], none⟩),
       ("CC", ⟨"CC", "DD", "p2", ["d2"], none⟩)] := by
  have h := distinct_keys_one_record_each [] ["AA BB [p1] /d1/", "CC DD [p2] /d2/"]
    [⟨"AA", "BB", "p1", ["d1"]⟩, ⟨"CC", "DD", "p2", ["d2"]⟩]
    (by decide) (by decide)
  rw [h]
  decide

/-- Claim C2 fails on the code as stated: the very first accepted word
(0-based page 0, 1-based position 1, so global rank 1) receives score
`11000 - 1 = 10999`, not `SPAN + 1 - 1 = 11000` for a span of 11000. -/
theorem freq_score_off_by_one_cex :
    alGet (download_frequency_lists [[["a", "b"]]]) "a" = some 10999 ∧
    (10999 : Int) ≠ 11000 + 1 - 1 := by decide

/-- Claim C2 (amended): a word accepted at 1-based position
`position = rc + 1` of page `i` (0-based), hence at global rank
`r = i * 1000 + position`, is assigned score `11000 - r` (that is,
`SPAN - r`, not `SPAN + 1 - r`); in particular rank 10999 receives
score 1 and rank 11000 would receive 0. -/
theorem freq_score_assignment (i rc : Nat) (m : List (String × Int))
    (cells : List String) (w : String) (s : Int)
    (hnot : alGet m w = none)
    (hin : alGet (stepRow i (rc, m) cells).2 w = some s) :
    (stepRow i (rc, m) cells).1 = rc + 1 ∧
      s = 11000 - Int.ofNat (i * 1000 + (rc + 1)) := by
  match cells with
  | [] =>
      simp only [stepRow] at hin
      rw [hnot] at hin
      cases hin
  | [c0] =>
      simp only [stepRow] at hin
      rw [hnot] at hin
      cases hin
  | c0 :: c1 :: rest =>
      refine ⟨rfl, ?_⟩
      simp only [stepRow] at hin
      unfold rowInsert at hin
      by_cases he : (pyStrip c0 = "" || pyStrip c1 = "") = true
      · rw [if_pos he] at hin
        rw [hnot] at hin
        cases hin
      · rw [if_neg he] at hin
        rcases freqInsert_lookup hin with h1 | h1
        · rcases freqInsert_lookup h1 with h2 | h2
          · rw [hnot] at h2
            cases h2
          · exact h2
        · exact h1

/-- Closed instance of the amended C2: on page 9 after 1998 counted
rows, the next accepted word sits at global rank 10999 and is assigned
score 1. -/
theorem freq_score_assignment_witness :
    (stepRow 9 (1998, []) ["w1", "w2"]).1 = 1998 + 1 ∧
      (1 : Int) = 11000 - Int.ofNat (9 * 1000 + (1998 + 1)) :=
  freq_score_assignment 9 1998 [] ["w1", "w2"] "w1" 1 (by decide) (by decide)

/-- Claim C3 fails on the code as stated: the line `"AA BB []/x/"` has an
empty bracketed pronunciation segment, yet it is accepted (not
discarded) and yields a record whose pronunciation is the empty
string. -/
theorem empty_pinyin_record_cex :
    (alGet (parse_cedict [] ["AA BB []/x/"]) "AA").map Record.pinyin = some "" ∧
    parseLine "AA BB []/x/" ≠ none := by decide

/-- Claim C3 (amended): a candidate's pronunciation can be empty on a
well-formed line whose bracketed segment is empty or whitespace, and
such a line is accepted, not discarded; a record with an empty
pronunciation can therefore appear in the final mapping.  What does
hold: when every accepted line carries a nonempty pronunciation, every
record of the final mapping has a nonempty pronunciation (merging
never empties it). -/
theorem nonempty_pinyin_preserved (fm : List (String × Int)) (lines : List String)
    (h : ∀ l ∈ lines, (parseLine l).map Entry.pinyin ≠ some "")
    (k : String) (r : Record) (hr : alGet (parse_cedict fm lines) k = some r) :
    r.pinyin ≠ "" := by
  have hinv : ∀ p ∈ parse_cedict fm lines, (Prod.snd p).pinyin ≠ "" := by
    refine foldl_invariant_mem (step fm)
      (fun d => ∀ p ∈ d, (Prod.snd p).pinyin ≠ "") lines ?_ [] (by simp)
    intro d l hl hd p
    match hq : parseLine l with
    | none =>
        simp only [step, hq]
        exact hd p
    | some e =>
        have hep : e.pinyin ≠ "" := by
          intro hc
          apply h l hl
          rw [hq, Option.map_some', hc]
        match hg : alGet d e.traditional with
        | some ex =>
            simp only [step, hq, hg]
            intro hp
            rcases mem_alSet hp with h' | h'
            · exact hd p h'
            · subst h'
              have hex : ex.pinyin ≠ "" := hd _ (alGet_mem hg)
              show (mergeRecord ex e (candFreq fm e)).pinyin ≠ ""
              unfold mergeRecord
              by_cases hpe : e.pinyin = ex.pinyin
              · simpa [hpe] using hex
              · simp only [if_neg hpe]
                exact append_ne_left _ _ (append_ne_left _ _ hex)
        | none =>
            simp only [step, hq, hg]
            intro hp
            rcases List.mem_append.mp hp with h' | h'
            · exact hd p h'
            · have : p = (e.traditional, initRecord fm e) := by simpa using h'
              subst this
              exact hep
  exact hinv (k, r) (alGet_mem hr)

/-- Closed instance of the amended C3: a one-line input with pronunciation
`"p"` keeps it nonempty. -/
theorem nonempty_pinyin_preserved_witness :
    (∀ l ∈ ["AA BB [p] /x/"], (parseLine l).map Entry.pinyin ≠ some "") ∧
    Record.pinyin ⟨"AA", "BB", "p", ["x"], none⟩ ≠ "" :=
  ⟨by decide, nonempty_pinyin_preserved [] ["AA BB [p] /x/"] (by decide) "AA"
    ⟨"AA", "BB", "p", ["x"], none⟩ (by decide)⟩

end Pandaverse
